import Mathlib

/-!
# Verification of the stress-ng supervision/metrics/fault-recovery core

Shallow embedding of the parts of `src/stress-atomic.c`, `src/stress-dev.c`
and `src/stress-cgroup.c` that the specification's claims are about, with
theorems settling each claim.

Modelling conventions:
* C `double` values (durations, counts, rates) are embedded as `ℚ`.
* Machine integers of width `w` are `Nat` taken modulo `2 ^ w`.
* Wall-clock readings (`stress_time_now()`) are environmental: each timed
  section is parametrised by the (rational) elapsed time it consumed.
* Process interleavings are sequentialised: a forked child's whole effect on
  its exclusive shared-memory slot is applied as one region update, which is
  adequate because the slots are statically partitioned (see the
  slot-isolation theorem).
-/

namespace StressNG

/-- `EXIT_SUCCESS`: successful run. -/
def EXIT_SUCCESS : Nat := 0

/-- `EXIT_FAILURE`: generic failure status a child exits with and the parent
returns (value from the C standard library). -/
def EXIT_FAILURE : Nat := 1

/-- `EXIT_NO_RESOURCE`: stress-ng's distinguished "no resource / skip" status
(stress-ng.h; only its distinctness from the other two statuses matters
here). -/
def EXIT_NO_RESOURCE : Nat := 3

/-- Linux errno `EAGAIN`. -/
def EAGAIN : Nat := 11

/-- Linux errno `ENOMEM`. -/
def ENOMEM : Nat := 12

/-- Signal number of `SIGKILL`. -/
def SIGKILL : Nat := 9

/-! ## stress-atomic.c: data model

`stress_metrics_t` is a pair of doubles `duration` and `count`
(one per workload kind); `stress_atomic_info_t` holds one such metric per
atomic exercise function.  `STRESS_ATOMIC_MAX_PROCS = 3` children plus the
parent give 4 slots; `atomic_func_info` has 4 entries (uint64, uint32,
uint16, uint8), so both the slot index and the workload-kind index
range over `Fin 4`. -/

/-- One metrics cell: `{ duration, count }` of `stress_metrics_t`. -/
structure Metric where
  duration : ℚ
  count : ℚ
deriving DecidableEq, Repr

/-- `STRESS_ATOMIC_MAX_PROCS` (number of forked children). -/
def STRESS_ATOMIC_MAX_PROCS : Nat := 3

/-- `STRESS_ATOMIC_MAX_FUNCS` (`SIZEOF_ARRAY(atomic_func_info) = 4`). -/
def STRESS_ATOMIC_MAX_FUNCS : Nat := 4

/-- A worker's metrics slot: `metrics[STRESS_ATOMIC_MAX_FUNCS]`, indexed by
workload-kind ordinal. -/
abbrev SlotMetrics := Fin 4 → Metric

/-- The shared metrics region `atomic_info[n_atomic_procs]`: one slot per
worker ordinal (children 0,1,2 and the parent in slot 3). -/
abbrev Region := Fin 4 → SlotMetrics

/-- The zero-valued slot the region is initialised with before any fork. -/
def initSlot : SlotMetrics := fun _ => { duration := 0, count := 0 }

/-- The region as zeroed by the initialisation loop of `stress_atomic`. -/
def initRegion : Region := fun _ => initSlot

/-! ## stress-atomic.c lines 454-465: the aggregation loop

For each workload kind `j` the code folds `duration += ...` and
`count += ...` over all `n_atomic_procs = 4` slots and then computes
`rate = (duration > 0.0) ? count / duration : 0.0`. -/

/-- The summed duration for workload kind `j`: the C loop
`for (i = 0; i < n_atomic_procs; i++) duration += atomic_info[i].metrics[j].duration`
starting from `0.0`. -/
def aggDuration (r : Region) (j : Fin 4) : ℚ :=
  (List.finRange 4).foldl (fun acc i => acc + (r i j).duration) 0

/-- The summed count for workload kind `j` (same loop, `count` field). -/
def aggCount (r : Region) (j : Fin 4) : ℚ :=
  (List.finRange 4).foldl (fun acc i => acc + (r i j).count) 0

/-- `rate = (duration > 0.0) ? count / duration : 0.0`. -/
def aggRate (r : Region) (j : Fin 4) : ℚ :=
  if 0 < aggDuration r j then aggCount r j / aggDuration r j else 0

/-- The spec's worked example, padded to the four slots of the code with
all-zero slots: slot 0 holds (duration 2, count 10), slot 1 holds
(duration 3, count 5) for every workload kind. -/
def exampleRegion : Region := fun i _ =>
  if i = 0 then { duration := 2, count := 10 }
  else if i = 1 then { duration := 3, count := 5 }
  else { duration := 0, count := 0 }

lemma fin_succ_two : (Fin.succ 2 : Fin 4) = 3 := rfl

lemma aggDuration_eq_sum (r : Region) (j : Fin 4) :
    aggDuration r j = ∑ i : Fin 4, (r i j).duration := by
  simp [aggDuration, List.finRange, Fin.sum_univ_four, fin_succ_two]

lemma aggCount_eq_sum (r : Region) (j : Fin 4) :
    aggCount r j = ∑ i : Fin 4, (r i j).count := by
  simp [aggCount, List.finRange, Fin.sum_univ_four, fin_succ_two]

/-- C1.  Aggregation correctness with zero-division guard: for every region
and workload kind, the aggregation loop's duration is the sum of the slots'
durations, its count is the sum of the slots' counts, the reported rate is
count/duration when the summed duration is positive and 0 otherwise (in
particular for the all-zero region), and the spec's example aggregates to
duration 5, count 15, rate 3. -/
theorem atomic_aggregation_correct :
    (∀ (r : Region) (j : Fin 4),
        aggDuration r j = ∑ i : Fin 4, (r i j).duration ∧
        aggCount r j = ∑ i : Fin 4, (r i j).count) ∧
    (∀ (r : Region) (j : Fin 4),
        aggRate r j =
          if 0 < ∑ i : Fin 4, (r i j).duration then
            (∑ i : Fin 4, (r i j).count) / (∑ i : Fin 4, (r i j).duration)
          else 0) ∧
    (∀ j : Fin 4, aggRate initRegion j = 0) ∧
    aggDuration exampleRegion 0 = 5 ∧ aggCount exampleRegion 0 = 15 ∧
    aggRate exampleRegion 0 = 3 := by
  refine ⟨fun r j => ⟨aggDuration_eq_sum r j, aggCount_eq_sum r j⟩, ?_, ?_, ?_, ?_, ?_⟩
  · intro r j
    rw [aggRate, aggDuration_eq_sum, aggCount_eq_sum]
  · intro j
    simp [aggRate, aggDuration, aggCount, initRegion, initSlot, List.finRange]
  · simp [aggDuration, exampleRegion, List.finRange, fin_succ_two]
    norm_num
  · simp [aggCount, exampleRegion, List.finRange, fin_succ_two]
    norm_num
  · simp [aggRate, aggDuration, aggCount, exampleRegion, List.finRange, fin_succ_two]
    norm_num

/-! ## stress-atomic.c lines 175-264: `DO_ATOMIC_OPS`

One batch: record `t = stress_time_now()`; store the random value
`check1 = tmp` into the local variable `unshared`, atomically add 2,
subtract 1, and load the result into `check2`; then perform 60 atomic
operations on the shared variable; accumulate
`*duration += stress_time_now() - t` and `*count += 64.0`; finally
decrement `check2` and fail (`rc = -1`, `break`) when it differs from
`check1`.  The value the load put into `check2` is environmental (with
working atomics it is `check1 + 1` modulo the word size; the check exists
to catch a broken atomic primitive), so a batch is parametrised by
`check1`, by the loaded `check2`, and by the elapsed time `dt`. -/

/-- The environment of one `DO_ATOMIC_OPS` batch: the random initial value
`check1` (`(type)stress_mwc64()`), the value the `SHIM_ATOMIC_LOAD` read
into `check2`, and the elapsed time of the batch's timed section. -/
structure BatchEnv where
  check1 : Nat
  loaded : Nat
  dt : ℚ

/-- The width in bits of the word type each of the four exercise functions
operates on: `uint64, uint32, uint16, uint8` in the order of
`atomic_func_info` (the `uint64` entry assumes `sizeof(long) == 8`). -/
def funcWidth : Fin 4 → Nat
  | 0 => 64
  | 1 => 32
  | 2 => 16
  | 3 => 8

/-- End-of-batch check of `DO_ATOMIC_OPS`: `check2--` (a `w`-bit unsigned
decrement, i.e. adding `2 ^ w - 1` modulo `2 ^ w`) followed by
`if (check2 != check1) rc = -1`. -/
def batchRC (w : Nat) (e : BatchEnv) : Int :=
  if (e.loaded + (2 ^ w - 1)) % 2 ^ w = e.check1 % 2 ^ w then 0 else -1

/-- Metric accumulation of one batch:
`(*duration) += stress_time_now() - t; (*count) += 64.0;` (performed before
the check, so also by a failing batch). -/
def batchMetric (e : BatchEnv) (m : Metric) : Metric :=
  { duration := m.duration + e.dt, count := m.count + 64 }

/-- One `DO_ATOMIC_OPS` batch: the updated metric and the return code. -/
def do_atomic_ops (w : Nat) (e : BatchEnv) (m : Metric) : Metric × Int :=
  (batchMetric e m, batchRC w e)

/-- The value `check2` holds after the sequence on the (unshared, local)
variable when the atomic builtins compute correctly: store `check1`, add 2,
subtract 1, load — all modulo `2 ^ w`. -/
def unsharedSeq (w c : Nat) : Nat :=
  ((c % 2 ^ w + 2) % 2 ^ w + (2 ^ w - 1)) % 2 ^ w

/-- With correctly computing atomics the end-of-batch check always passes. -/
lemma batchRC_unsharedSeq (w c : Nat) (dt : ℚ) :
    batchRC w { check1 := c, loaded := unsharedSeq w c, dt := dt } = 0 := by
  have hM : 1 ≤ 2 ^ w := Nat.one_le_two_pow
  unfold batchRC unsharedSeq
  simp only [Nat.mod_add_mod]
  rw [if_pos]
  have h2 : c + 2 + (2 ^ w - 1) + (2 ^ w - 1) = c + 2 * 2 ^ w := by omega
  rw [h2, Nat.add_mul_mod_self_right]

/-! ## stress-atomic.c lines 363-385: `stress_atomic_exercise`

```
do {
  for (i = 0; i < STRESS_ATOMIC_MAX_FUNCS; i++)
    for (j = 0; j < rounds; j++)
      if (func(args, &metrics[i].duration, &metrics[i].count) < 0)
        return -1;
  stress_bogo_inc(args);
} while (stress_continue(args));
return 0;
```
with `rounds = 1000`.  The environments of one pass are a function
`Fin 4 → Nat → BatchEnv` (per exercise function, per round); the do-while
is driven by the list of passes the continue flag allows (the list ends
where `stress_continue` first reads false).  `executed` counts the batches
actually run, making "returns immediately, no further batch" statable. -/

/-- `rounds` of `stress_atomic_exercise`. -/
def rounds : Nat := 1000

/-- The batch environments of one pass of the do-while loop. -/
abbrev PassEnv := Fin 4 → Nat → BatchEnv

/-- Result of (part of) an exercise: final slot, return code, and the number
of batches executed. -/
structure ExRes where
  slot : SlotMetrics
  rc : Int
  executed : Nat

/-- The inner `for (j ...)` loop for exercise function `i`: `r` rounds
remain, `j` is the current round index.  Each iteration runs one batch on
`metrics[i]` and returns `-1` as soon as a batch fails. -/
def runRounds (i : Fin 4) (env : Nat → BatchEnv) : Nat → Nat → SlotMetrics → ExRes
  | 0, _, slot => { slot := slot, rc := 0, executed := 0 }
  | r + 1, j, slot =>
    let e := env j
    let slot' := Function.update slot i (batchMetric e (slot i))
    if batchRC (funcWidth i) e < 0 then { slot := slot', rc := -1, executed := 1 }
    else
      let res := runRounds i env r (j + 1) slot'
      { slot := res.slot, rc := res.rc, executed := res.executed + 1 }

/-- The outer `for (i ...)` loop over the exercise functions still to run. -/
def runFuncsGo (p : PassEnv) : List (Fin 4) → SlotMetrics → ExRes
  | [], slot => { slot := slot, rc := 0, executed := 0 }
  | i :: is, slot =>
    let r := runRounds i (p i) rounds 0 slot
    if r.rc < 0 then { slot := r.slot, rc := -1, executed := r.executed }
    else
      let r2 := runFuncsGo p is r.slot
      { slot := r2.slot, rc := r2.rc, executed := r.executed + r2.executed }

/-- One full pass over `atomic_func_info` (`i = 0..3`). -/
def runPass (p : PassEnv) (slot : SlotMetrics) : ExRes :=
  runFuncsGo p (List.finRange 4) slot

/-- `stress_atomic_exercise`: the do-while loop over the passes the continue
flag allows; returns `-1` at the first failing batch, else `0` once the
flag clears. -/
def stress_atomic_exercise : List PassEnv → SlotMetrics → ExRes
  | [], slot => { slot := slot, rc := 0, executed := 0 }
  | p :: rest, slot =>
    let r := runPass p slot
    if r.rc < 0 then { slot := r.slot, rc := -1, executed := r.executed }
    else
      let r2 := stress_atomic_exercise rest r.slot
      { slot := r2.slot, rc := r2.rc, executed := r.executed + r2.executed }

/-! ## stress-atomic.c lines 391-472: `stress_atomic`

`mmap` the shared region (skip with `EXIT_NO_RESOURCE` on failure), zero
it, fork the three children (child `i` exercises `&atomic_info[i]` and
exits `EXIT_FAILURE` exactly when its exercise returned a negative
status), exercise slot 3 in the parent, reap, fold the children's exit
statuses and the parent's own result into `rc`, aggregate, return `rc`. -/

/-- The effect of worker `i`'s whole exercise on the shared region: the
worker reads and writes only `atomic_info[i]`. -/
def applyWorker (env : List PassEnv) (i : Fin 4) (r : Region) : Region :=
  Function.update r i (stress_atomic_exercise env (r i)).slot

/-- The region after all four workers ran (children 0,1,2 and the parent in
slot 3), starting from the zeroed region. -/
def finalRegion (envs : Fin 4 → List PassEnv) : Region :=
  applyWorker (envs 3) 3
    (applyWorker (envs 2) 2 (applyWorker (envs 1) 1 (applyWorker (envs 0) 0 initRegion)))

/-- Exit status of forked child `i`:
`if (stress_atomic_exercise(args, &atomic_info[i]) < 0) _exit(EXIT_FAILURE); _exit(EXIT_SUCCESS);`
(the child's slot is zero-valued at fork time). -/
def childStatus (env : List PassEnv) : Nat :=
  if (stress_atomic_exercise env initSlot).rc < 0 then EXIT_FAILURE else EXIT_SUCCESS

/-- Observable outcome of one `stress_atomic` run: its return status, how
many children were forked, and (when the region was mapped) the final
region and the per-kind rates it reported. -/
structure AtomicRun where
  status : Nat
  forked : Nat
  region : Option Region
  rates : Option (Fin 4 → ℚ)

/-- `stress_atomic`, parametrised by whether the `mmap` of the shared
metrics region succeeded, by each worker's batch environments, and by the
outcome of the non-blocking reap (lines 438-451): `reaped i` is true when
`waitpid(pid, &status, WNOHANG)` returned child `i`'s pid with an exited
status — only then is `WEXITSTATUS` compared against `EXIT_FAILURE`.  When
the non-blocking wait misses (the child had not yet exited at that
moment), the kill branch sends `SIGKILL` and the blocking `waitpid`
discards the status, so that child's exit status is never examined. -/
def stress_atomic (mmapOk : Bool) (envs : Fin 4 → List PassEnv)
    (reaped : Fin 3 → Bool) : AtomicRun :=
  if mmapOk then
    let region := finalRegion envs
    let rc₁ :=
      if (stress_atomic_exercise (envs 3) initSlot).rc < 0 then EXIT_FAILURE else EXIT_SUCCESS
    let rc₂ :=
      if (reaped 0 = true ∧ childStatus (envs 0) = EXIT_FAILURE) ∨
          (reaped 1 = true ∧ childStatus (envs 1) = EXIT_FAILURE) ∨
          (reaped 2 = true ∧ childStatus (envs 2) = EXIT_FAILURE) then EXIT_FAILURE
      else rc₁
    { status := rc₂, forked := STRESS_ATOMIC_MAX_PROCS, region := some region,
      rates := some (aggRate region) }
  else
    { status := EXIT_NO_RESOURCE, forked := 0, region := none, rates := none }

/-! ## Supporting lemmas on the exercise loops

The loop functions are made irreducible (their defining equations below are
what the proofs use): unfolding `runRounds` on the literal `rounds = 1000`
during definitional-equality checks would otherwise make elaboration
intractable. -/

lemma runRounds_zero (i : Fin 4) (env : Nat → BatchEnv) (j : Nat) (slot : SlotMetrics) :
    runRounds i env 0 j slot = { slot := slot, rc := 0, executed := 0 } := by
  simp only [runRounds]

lemma runRounds_succ_fail (i : Fin 4) (env : Nat → BatchEnv) (r j : Nat)
    (slot : SlotMetrics) (h : batchRC (funcWidth i) (env j) < 0) :
    runRounds i env (r + 1) j slot =
      { slot := Function.update slot i (batchMetric (env j) (slot i)),
        rc := -1, executed := 1 } := by
  simp only [runRounds, if_pos h]

lemma runRounds_succ_ok (i : Fin 4) (env : Nat → BatchEnv) (r j : Nat)
    (slot : SlotMetrics) (h : ¬ batchRC (funcWidth i) (env j) < 0) :
    runRounds i env (r + 1) j slot =
      { slot := (runRounds i env r (j + 1)
          (Function.update slot i (batchMetric (env j) (slot i)))).slot,
        rc := (runRounds i env r (j + 1)
          (Function.update slot i (batchMetric (env j) (slot i)))).rc,
        executed := (runRounds i env r (j + 1)
          (Function.update slot i (batchMetric (env j) (slot i)))).executed + 1 } := by
  simp only [runRounds, if_neg h]

lemma runFuncsGo_nil (p : PassEnv) (slot : SlotMetrics) :
    runFuncsGo p [] slot = { slot := slot, rc := 0, executed := 0 } := by
  simp only [runFuncsGo]

lemma runFuncsGo_cons_fail (p : PassEnv) (i : Fin 4) (is : List (Fin 4))
    (slot : SlotMetrics) (h : (runRounds i (p i) rounds 0 slot).rc < 0) :
    runFuncsGo p (i :: is) slot =
      { slot := (runRounds i (p i) rounds 0 slot).slot, rc := -1,
        executed := (runRounds i (p i) rounds 0 slot).executed } := by
  simp only [runFuncsGo, if_pos h]

lemma runFuncsGo_cons_ok (p : PassEnv) (i : Fin 4) (is : List (Fin 4))
    (slot : SlotMetrics) (h : ¬ (runRounds i (p i) rounds 0 slot).rc < 0) :
    runFuncsGo p (i :: is) slot =
      { slot := (runFuncsGo p is (runRounds i (p i) rounds 0 slot).slot).slot,
        rc := (runFuncsGo p is (runRounds i (p i) rounds 0 slot).slot).rc,
        executed := (runRounds i (p i) rounds 0 slot).executed +
          (runFuncsGo p is (runRounds i (p i) rounds 0 slot).slot).executed } := by
  simp only [runFuncsGo, if_neg h]

lemma exercise_nil (slot : SlotMetrics) :
    stress_atomic_exercise [] slot = { slot := slot, rc := 0, executed := 0 } := by
  simp only [stress_atomic_exercise]

lemma exercise_cons_fail (p : PassEnv) (rest : List PassEnv) (slot : SlotMetrics)
    (h : (runPass p slot).rc < 0) :
    stress_atomic_exercise (p :: rest) slot =
      { slot := (runPass p slot).slot, rc := -1,
        executed := (runPass p slot).executed } := by
  simp only [stress_atomic_exercise, if_pos h]

lemma exercise_cons_ok (p : PassEnv) (rest : List PassEnv) (slot : SlotMetrics)
    (h : ¬ (runPass p slot).rc < 0) :
    stress_atomic_exercise (p :: rest) slot =
      { slot := (stress_atomic_exercise rest (runPass p slot).slot).slot,
        rc := (stress_atomic_exercise rest (runPass p slot).slot).rc,
        executed := (runPass p slot).executed +
          (stress_atomic_exercise rest (runPass p slot).slot).executed } := by
  simp only [stress_atomic_exercise, if_neg h]

attribute [irreducible] runRounds runFuncsGo runPass stress_atomic_exercise

/-- Projection of an explicit `ExRes` value (kept as rewrite rules so that
no proof ever needs a definitional-equality check against the irreducible
loop functions). -/
lemma ExRes_slot_mk (a : SlotMetrics) (b : Int) (c : Nat) :
    (ExRes.mk a b c).slot = a := rfl

lemma ExRes_rc_mk (a : SlotMetrics) (b : Int) (c : Nat) :
    (ExRes.mk a b c).rc = b := rfl

lemma ExRes_executed_mk (a : SlotMetrics) (b : Int) (c : Nat) :
    (ExRes.mk a b c).executed = c := rfl

lemma runRounds_ok (i : Fin 4) (env : Nat → BatchEnv) :
    ∀ (r j : Nat) (slot : SlotMetrics),
      (∀ k, j ≤ k → k < j + r → 0 ≤ batchRC (funcWidth i) (env k)) →
      (runRounds i env r j slot).rc = 0 ∧ (runRounds i env r j slot).executed = r := by
  intro r
  induction r with
  | zero =>
    intro j slot _
    rw [runRounds_zero, ExRes_rc_mk, ExRes_executed_mk]
    exact ⟨rfl, rfl⟩
  | succ r ih =>
    intro j slot h
    have h0 : ¬ batchRC (funcWidth i) (env j) < 0 :=
      Int.not_lt.mpr (h j le_rfl (by omega))
    obtain ⟨ih1, ih2⟩ := ih (j + 1)
      (Function.update slot i (batchMetric (env j) (slot i)))
      (fun k hk hk' => h k (by omega) (by omega))
    rw [runRounds_succ_ok i env r j slot h0, ExRes_rc_mk, ExRes_executed_mk, ih1, ih2]
    exact ⟨rfl, rfl⟩

lemma runRounds_fail (i : Fin 4) (env : Nat → BatchEnv) :
    ∀ (r j j₀ : Nat) (slot : SlotMetrics),
      j ≤ j₀ → j₀ < j + r →
      batchRC (funcWidth i) (env j₀) < 0 →
      (∀ k, j ≤ k → k < j₀ → 0 ≤ batchRC (funcWidth i) (env k)) →
      (runRounds i env r j slot).rc = -1 ∧
      (runRounds i env r j slot).executed = j₀ - j + 1 := by
  intro r
  induction r with
  | zero => intro j j₀ slot h1 h2; omega
  | succ r ih =>
    intro j j₀ slot h1 h2 hfail hok
    rcases Nat.eq_or_lt_of_le h1 with rfl | hlt
    · rw [runRounds_succ_fail i env r j slot hfail, ExRes_rc_mk, ExRes_executed_mk]
      exact ⟨rfl, by omega⟩
    · have h0 : ¬ batchRC (funcWidth i) (env j) < 0 :=
        Int.not_lt.mpr (hok j le_rfl hlt)
      obtain ⟨ih1, ih2⟩ := ih (j + 1) j₀
        (Function.update slot i (batchMetric (env j) (slot i)))
        (by omega) (by omega) hfail (fun k hk hk' => hok k (by omega) hk')
      rw [runRounds_succ_ok i env r j slot h0, ExRes_rc_mk, ExRes_executed_mk, ih1, ih2]
      exact ⟨rfl, by omega⟩

lemma runFuncsGo_ok (p : PassEnv) :
    ∀ (is : List (Fin 4)) (slot : SlotMetrics),
      (∀ i ∈ is, ∀ j, j < rounds → 0 ≤ batchRC (funcWidth i) (p i j)) →
      (runFuncsGo p is slot).rc = 0 ∧
      (runFuncsGo p is slot).executed = rounds * is.length := by
  intro is
  induction is with
  | nil =>
    intro slot _
    rw [runFuncsGo_nil, ExRes_rc_mk, ExRes_executed_mk]
    exact ⟨rfl, by rw [List.length_nil, Nat.mul_zero]⟩
  | cons i is ih =>
    intro slot h
    obtain ⟨hr1, hr2⟩ := runRounds_ok i (p i) rounds 0 slot
      (fun k _ hk => h i (List.mem_cons_self i is) k (by omega))
    have h0 : ¬ (runRounds i (p i) rounds 0 slot).rc < 0 := by rw [hr1]; omega
    obtain ⟨h21, h22⟩ := ih ((runRounds i (p i) rounds 0 slot).slot)
      (fun i' hi' => h i' (List.mem_cons_of_mem i hi'))
    rw [runFuncsGo_cons_ok p i is slot h0, ExRes_rc_mk, ExRes_executed_mk, h21, h22,
      hr2, List.length_cons, Nat.mul_succ]
    exact ⟨rfl, by omega⟩

lemma runFuncsGo_fail (p : PassEnv) :
    ∀ (pre : List (Fin 4)) (i₀ : Fin 4) (suf : List (Fin 4)) (j₀ : Nat)
      (slot : SlotMetrics),
      j₀ < rounds →
      batchRC (funcWidth i₀) (p i₀ j₀) < 0 →
      (∀ j < j₀, 0 ≤ batchRC (funcWidth i₀) (p i₀ j)) →
      (∀ i ∈ pre, ∀ j, j < rounds → 0 ≤ batchRC (funcWidth i) (p i j)) →
      (runFuncsGo p (pre ++ i₀ :: suf) slot).rc = -1 ∧
      (runFuncsGo p (pre ++ i₀ :: suf) slot).executed =
        rounds * pre.length + (j₀ + 1) := by
  intro pre
  induction pre with
  | nil =>
    intro i₀ suf j₀ slot hj₀ hfail hbj _
    obtain ⟨hr1, hr2⟩ := runRounds_fail i₀ (p i₀) rounds 0 j₀ slot (Nat.zero_le _)
      (by omega) hfail (fun k _ hk => hbj k hk)
    have h0 : (runRounds i₀ (p i₀) rounds 0 slot).rc < 0 := by rw [hr1]; omega
    rw [List.nil_append, runFuncsGo_cons_fail p i₀ suf slot h0, ExRes_rc_mk,
      ExRes_executed_mk, hr2, List.length_nil, Nat.mul_zero]
    exact ⟨rfl, by omega⟩
  | cons i pre ih =>
    intro i₀ suf j₀ slot hj₀ hfail hbj hpre
    obtain ⟨hr1, hr2⟩ := runRounds_ok i (p i) rounds 0 slot
      (fun k _ hk => hpre i (List.mem_cons_self i pre) k (by omega))
    have h0 : ¬ (runRounds i (p i) rounds 0 slot).rc < 0 := by rw [hr1]; omega
    obtain ⟨h21, h22⟩ := ih i₀ suf j₀ ((runRounds i (p i) rounds 0 slot).slot)
      hj₀ hfail hbj (fun i' hi' => hpre i' (List.mem_cons_of_mem i hi'))
    rw [List.cons_append, runFuncsGo_cons_ok p i (pre ++ i₀ :: suf) slot h0,
      ExRes_rc_mk, ExRes_executed_mk, h21, h22, hr2, List.length_cons, Nat.mul_succ]
    exact ⟨rfl, by omega⟩

lemma finRange_four : List.finRange 4 = [0, 1, 2, 3] := by decide

lemma runPass_eq (p : PassEnv) (slot : SlotMetrics) :
    runPass p slot = runFuncsGo p [0, 1, 2, 3] slot := by
  rw [runPass, finRange_four]

lemma runPass_fail (p : PassEnv) (i₀ : Fin 4) (j₀ : Nat) (slot : SlotMetrics)
    (hj₀ : j₀ < rounds)
    (hfail : batchRC (funcWidth i₀) (p i₀ j₀) < 0)
    (hbj : ∀ j < j₀, 0 ≤ batchRC (funcWidth i₀) (p i₀ j))
    (hbi : ∀ i : Fin 4, i < i₀ → ∀ j, j < rounds → 0 ≤ batchRC (funcWidth i) (p i j)) :
    (runPass p slot).rc = -1 ∧
    (runPass p slot).executed = rounds * i₀.val + (j₀ + 1) := by
  rw [runPass_eq]
  fin_cases i₀
  · have h := runFuncsGo_fail p [] 0 [1, 2, 3] j₀ slot hj₀ hfail hbj
      (fun i hi => absurd hi (List.not_mem_nil i))
    refine ⟨by simpa using h.1, by simpa using h.2⟩
  · have h := runFuncsGo_fail p [0] 1 [2, 3] j₀ slot hj₀ hfail hbj ?_
    · refine ⟨by simpa using h.1, by simpa using h.2⟩
    · intro i hi j hj
      have hi' : i = 0 := by simpa using hi
      subst hi'
      exact hbi 0 (by decide) j hj
  · have h := runFuncsGo_fail p [0, 1] 2 [3] j₀ slot hj₀ hfail hbj ?_
    · refine ⟨by simpa using h.1, by simpa using h.2⟩
    · intro i hi j hj
      have hi' : i = 0 ∨ i = 1 := by simpa using hi
      rcases hi' with rfl | rfl
      · exact hbi 0 (by decide) j hj
      · exact hbi 1 (by decide) j hj
  · have h := runFuncsGo_fail p [0, 1, 2] 3 [] j₀ slot hj₀ hfail hbj ?_
    · refine ⟨by simpa using h.1, by simpa using h.2⟩
    · intro i hi j hj
      have hi' : i = 0 ∨ i = 1 ∨ i = 2 := by simpa using hi
      rcases hi' with rfl | rfl | rfl
      · exact hbi 0 (by decide) j hj
      · exact hbi 1 (by decide) j hj
      · exact hbi 2 (by decide) j hj

lemma runPass_ok (p : PassEnv) (slot : SlotMetrics)
    (h : ∀ i : Fin 4, ∀ j, j < rounds → 0 ≤ batchRC (funcWidth i) (p i j)) :
    (runPass p slot).rc = 0 ∧ (runPass p slot).executed = rounds * 4 := by
  rw [runPass_eq]
  have hl : ([0, 1, 2, 3] : List (Fin 4)).length = 4 := rfl
  obtain ⟨h1, h2⟩ := runFuncsGo_ok p [0, 1, 2, 3] slot (fun i _ j hj => h i j hj)
  exact ⟨h1, by rw [h2, hl]⟩

lemma exercise_ok (envs : List PassEnv) :
    ∀ (slot : SlotMetrics),
      (∀ q ∈ envs, ∀ i : Fin 4, ∀ j, j < rounds → 0 ≤ batchRC (funcWidth i) (q i j)) →
      (stress_atomic_exercise envs slot).rc = 0 := by
  induction envs with
  | nil =>
    intro slot _
    rw [exercise_nil, ExRes_rc_mk]
  | cons q qs ih =>
    intro slot h
    have hq := runPass_ok q slot (h q (List.mem_cons_self q qs))
    have h0 : ¬ (runPass q slot).rc < 0 := by rw [hq.1]; omega
    rw [exercise_cons_ok q qs slot h0, ExRes_rc_mk]
    exact ih _ (fun q' hq' => h q' (List.mem_cons_of_mem q hq'))

lemma stress_atomic_true_status (envs : Fin 4 → List PassEnv)
    (reaped : Fin 3 → Bool) :
    (stress_atomic true envs reaped).status =
      (if (reaped 0 = true ∧ childStatus (envs 0) = EXIT_FAILURE) ∨
          (reaped 1 = true ∧ childStatus (envs 1) = EXIT_FAILURE) ∨
          (reaped 2 = true ∧ childStatus (envs 2) = EXIT_FAILURE) then EXIT_FAILURE
       else if (stress_atomic_exercise (envs 3) initSlot).rc < 0 then EXIT_FAILURE
       else EXIT_SUCCESS) := rfl

/-- C3 (amended).  Verification mismatch is never swallowed by the loop and
is reported whenever the reap examines it: when, in the first pass of a
worker's loop, the batch at function index `i₀`, round `j₀` is the first
whose end-of-batch check fails, `stress_atomic_exercise` returns `-1`
immediately — exactly the batches up to and including the failing one are
executed and the remaining passes are irrelevant to the result — and the
forked child's exit status is `EXIT_FAILURE`; `stress_atomic` returns
`EXIT_FAILURE` whenever the failing worker is the parent (slot 3) or a
child (0, 1, 2) whose exit the non-blocking `waitpid` reaped; conversely a
loop all of whose batch checks pass returns 0.  (A child that fails only
after the parent's `WNOHANG` poll is killed and its status discarded; see
the counterexample of the original unconditional claim.) -/
theorem atomic_verify_mismatch_aborts (p : PassEnv) (rest rest' : List PassEnv)
    (slot : SlotMetrics) (i₀ : Fin 4) (j₀ : Nat)
    (hj₀ : j₀ < rounds)
    (hfail : batchRC (funcWidth i₀) (p i₀ j₀) < 0)
    (hbj : ∀ j < j₀, 0 ≤ batchRC (funcWidth i₀) (p i₀ j))
    (hbi : ∀ i : Fin 4, i < i₀ → ∀ j, j < rounds → 0 ≤ batchRC (funcWidth i) (p i j)) :
    (stress_atomic_exercise (p :: rest) slot).rc = -1 ∧
    (stress_atomic_exercise (p :: rest) slot).executed = rounds * i₀.val + (j₀ + 1) ∧
    stress_atomic_exercise (p :: rest) slot = stress_atomic_exercise (p :: rest') slot ∧
    childStatus (p :: rest) = EXIT_FAILURE ∧
    (∀ (envs : Fin 4 → List PassEnv) (reaped : Fin 3 → Bool),
        (reaped 0 = true ∧ envs 0 = p :: rest) ∨ (reaped 1 = true ∧ envs 1 = p :: rest) ∨
          (reaped 2 = true ∧ envs 2 = p :: rest) ∨ envs 3 = p :: rest →
        (stress_atomic true envs reaped).status = EXIT_FAILURE) ∧
    (∀ (envs₂ : List PassEnv) (slot₂ : SlotMetrics),
        (∀ q ∈ envs₂, ∀ i : Fin 4, ∀ j, j < rounds → 0 ≤ batchRC (funcWidth i) (q i j)) →
        (stress_atomic_exercise envs₂ slot₂).rc = 0) := by
  have hp := runPass_fail p i₀ j₀ slot hj₀ hfail hbj hbi
  have hplt : (runPass p slot).rc < 0 := by rw [hp.1]; omega
  have hinit := runPass_fail p i₀ j₀ initSlot hj₀ hfail hbj hbi
  have hinitlt : (runPass p initSlot).rc < 0 := by rw [hinit.1]; omega
  have hex : (stress_atomic_exercise (p :: rest) initSlot).rc = -1 := by
    rw [exercise_cons_fail p rest initSlot hinitlt, ExRes_rc_mk]
  have hchild : childStatus (p :: rest) = EXIT_FAILURE := by
    rw [childStatus, if_pos]
    rw [hex]
    omega
  refine ⟨?_, ?_, ?_, hchild, ?_, fun envs₂ slot₂ h₂ => exercise_ok envs₂ slot₂ h₂⟩
  · rw [exercise_cons_fail p rest slot hplt, ExRes_rc_mk]
  · rw [exercise_cons_fail p rest slot hplt, ExRes_executed_mk, hp.2]
  · rw [exercise_cons_fail p rest slot hplt, exercise_cons_fail p rest' slot hplt]
  · intro envs reaped hworker
    rw [stress_atomic_true_status envs reaped]
    rcases hworker with ⟨hr, h⟩ | ⟨hr, h⟩ | ⟨hr, h⟩ | h
    · rw [h, if_pos (Or.inl ⟨hr, hchild⟩)]
    · rw [h, if_pos (Or.inr (Or.inl ⟨hr, hchild⟩))]
    · rw [h, if_pos (Or.inr (Or.inr ⟨hr, hchild⟩))]
    · rw [h]
      by_cases hc : (reaped 0 = true ∧ childStatus (envs 0) = EXIT_FAILURE) ∨
          (reaped 1 = true ∧ childStatus (envs 1) = EXIT_FAILURE) ∨
          (reaped 2 = true ∧ childStatus (envs 2) = EXIT_FAILURE)
      · rw [if_pos hc]
      · rw [if_neg hc, if_pos (by rw [hex]; omega)]

/-- Closed instance for `atomic_verify_mismatch_aborts`: a first-pass
environment whose very first batch fails its check (`check1 = 0`, loaded
`check2 = 0`: after the decrement the comparison reads `2^64 - 1 ≠ 0`). -/
theorem atomic_verify_mismatch_aborts_witness :
    (stress_atomic_exercise ((fun _ _ => { check1 := 0, loaded := 0, dt := 0 }) :: [])
        initSlot).rc = -1 :=
  (atomic_verify_mismatch_aborts (fun _ _ => { check1 := 0, loaded := 0, dt := 0 })
    [] [] initSlot 0 0 (by norm_num [rounds]) (by decide)
    (fun j hj => absurd hj (Nat.not_lt_zero j))
    (fun i hi => absurd hi (by simp [Fin.not_lt_zero]))).1

/-- A pass environment whose very first batch fails its check. -/
def failPass : PassEnv := fun _ _ => { check1 := 0, loaded := 0, dt := 0 }

/-- A run in which only child 0 runs the failing environment. -/
def cexEnvs : Fin 4 → List PassEnv := fun i => if i = 0 then [failPass] else []

/-- A reap in which no child had exited yet when the non-blocking
`waitpid` polled it: every child goes through the kill branch and its exit
status is discarded. -/
def cexReaped : Fin 3 → Bool := fun _ => false

/-- C3 counterexample to the original claim: child 0's very first batch
fails its end-of-batch check, the child's exercise returns `-1` and it
exits `EXIT_FAILURE` — yet because the non-blocking `waitpid` missed the
child, the kill branch's blocking `waitpid` discards the status and
`stress_atomic` returns `EXIT_SUCCESS`: the failure is silently
swallowed, contradicting "the run ends with a failure status". -/
theorem atomic_verify_mismatch_swallowed_cex :
    (stress_atomic_exercise [failPass] initSlot).rc = -1 ∧
    childStatus [failPass] = EXIT_FAILURE ∧
    cexEnvs 0 = [failPass] ∧
    (stress_atomic true cexEnvs cexReaped).status = EXIT_SUCCESS := by
  have hfail : batchRC (funcWidth 0) (failPass 0 0) < 0 := by decide
  have hp := runPass_fail failPass 0 0 initSlot (by norm_num [rounds]) hfail
    (fun j hj => absurd hj (Nat.not_lt_zero j))
    (fun i hi => absurd hi (by simp [Fin.not_lt_zero]))
  have hplt : (runPass failPass initSlot).rc < 0 := by rw [hp.1]; omega
  have hex : (stress_atomic_exercise [failPass] initSlot).rc = -1 := by
    rw [exercise_cons_fail failPass [] initSlot hplt, ExRes_rc_mk]
  have hchild : childStatus [failPass] = EXIT_FAILURE := by
    rw [childStatus, if_pos]
    rw [hex]
    omega
  refine ⟨hex, hchild, by simp [cexEnvs], ?_⟩
  rw [stress_atomic_true_status cexEnvs cexReaped]
  rw [if_neg (by simp [cexReaped])]
  have h3 : cexEnvs 3 = [] := by simp [cexEnvs]
  rw [if_neg (by rw [h3, exercise_nil, ExRes_rc_mk]; omega)]

/-! ## Slot isolation and metric monotonicity -/

lemma applyWorker_frame (env : List PassEnv) (i j : Fin 4) (r : Region) (h : i ≠ j) :
    applyWorker env i r j = r j := by
  rw [applyWorker, Function.update_noteq (Ne.symm h)]

lemma finalRegion_slot (envs : Fin 4 → List PassEnv) (j : Fin 4) :
    finalRegion envs j = (stress_atomic_exercise (envs j) initSlot).slot := by
  fin_cases j <;>
    simp [finalRegion, applyWorker, Function.update_apply, initRegion]

/-- C5.  Slot isolation: worker `i`'s whole effect on the shared region (the
exercise loop run against `&atomic_info[i]`) leaves every other slot `j`
untouched, and consequently in a full `stress_atomic` run the final
contents of slot `j` are exactly what worker `j`'s own exercise produced
from its zeroed slot, independent of every other worker. -/
theorem atomic_slot_isolation (i j : Fin 4) (h : i ≠ j) (env : List PassEnv)
    (r : Region) :
    applyWorker env i r j = r j ∧
    (∀ envs : Fin 4 → List PassEnv,
        finalRegion envs j = (stress_atomic_exercise (envs j) initSlot).slot) :=
  ⟨applyWorker_frame env i j r h, fun envs => finalRegion_slot envs j⟩

/-- Closed instance for `atomic_slot_isolation`: the idle worker 0 leaves
slot 1 of the zeroed region unchanged. -/
theorem atomic_slot_isolation_witness :
    applyWorker [] 0 initRegion 1 = initRegion 1 :=
  (atomic_slot_isolation 0 1 (by decide) [] initRegion).1

/-- C7.  Shared-region allocation failure is a clean skip: when the `mmap`
of the shared metrics region fails, `stress_atomic` returns
`EXIT_NO_RESOURCE` (distinct from both success and failure), forks no
worker, and neither writes nor aggregates any metric. -/
theorem atomic_mmap_fail_clean_skip :
    (∀ (envs : Fin 4 → List PassEnv) (reaped : Fin 3 → Bool),
        (stress_atomic false envs reaped).status = EXIT_NO_RESOURCE ∧
        (stress_atomic false envs reaped).forked = 0 ∧
        (stress_atomic false envs reaped).region = none ∧
        (stress_atomic false envs reaped).rates = none) ∧
    EXIT_NO_RESOURCE ≠ EXIT_SUCCESS ∧ EXIT_NO_RESOURCE ≠ EXIT_FAILURE := by
  refine ⟨fun envs reaped => ⟨rfl, rfl, rfl, rfl⟩, by decide, by decide⟩

lemma batchMetric_le (e : BatchEnv) (m : Metric) (h : 0 ≤ e.dt) :
    m.duration ≤ (batchMetric e m).duration ∧ m.count ≤ (batchMetric e m).count := by
  constructor
  · simp only [batchMetric]
    linarith
  · simp only [batchMetric]
    linarith

lemma slot_update_le (slot : SlotMetrics) (i k : Fin 4) (e : BatchEnv) (h : 0 ≤ e.dt) :
    (slot k).duration ≤ ((Function.update slot i (batchMetric e (slot i))) k).duration ∧
    (slot k).count ≤ ((Function.update slot i (batchMetric e (slot i))) k).count := by
  rcases eq_or_ne k i with rfl | hk
  · rw [Function.update_same]
    exact batchMetric_le e (slot k) h
  · rw [Function.update_noteq hk]
    exact ⟨le_rfl, le_rfl⟩

lemma runRounds_le (i : Fin 4) (env : Nat → BatchEnv) (hdt : ∀ m, 0 ≤ (env m).dt) :
    ∀ (r j : Nat) (slot : SlotMetrics) (k : Fin 4),
      (slot k).duration ≤ ((runRounds i env r j slot).slot k).duration ∧
      (slot k).count ≤ ((runRounds i env r j slot).slot k).count := by
  intro r
  induction r with
  | zero =>
    intro j slot k
    rw [runRounds_zero, ExRes_slot_mk]
    exact ⟨le_rfl, le_rfl⟩
  | succ r ih =>
    intro j slot k
    have h1 := slot_update_le slot i k (env j) (hdt j)
    by_cases h0 : batchRC (funcWidth i) (env j) < 0
    · rw [runRounds_succ_fail i env r j slot h0, ExRes_slot_mk]
      exact h1
    · rw [runRounds_succ_ok i env r j slot h0, ExRes_slot_mk]
      have h2 := ih (j + 1) (Function.update slot i (batchMetric (env j) (slot i))) k
      exact ⟨h1.1.trans h2.1, h1.2.trans h2.2⟩

lemma runFuncsGo_le (p : PassEnv) (hdt : ∀ (i : Fin 4) (m : Nat), 0 ≤ (p i m).dt) :
    ∀ (is : List (Fin 4)) (slot : SlotMetrics) (k : Fin 4),
      (slot k).duration ≤ ((runFuncsGo p is slot).slot k).duration ∧
      (slot k).count ≤ ((runFuncsGo p is slot).slot k).count := by
  intro is
  induction is with
  | nil =>
    intro slot k
    rw [runFuncsGo_nil, ExRes_slot_mk]
    exact ⟨le_rfl, le_rfl⟩
  | cons i is ih =>
    intro slot k
    have h1 := runRounds_le i (p i) (hdt i) rounds 0 slot k
    by_cases h0 : (runRounds i (p i) rounds 0 slot).rc < 0
    · rw [runFuncsGo_cons_fail p i is slot h0, ExRes_slot_mk]
      exact h1
    · rw [runFuncsGo_cons_ok p i is slot h0, ExRes_slot_mk]
      have h2 := ih ((runRounds i (p i) rounds 0 slot).slot) k
      exact ⟨h1.1.trans h2.1, h1.2.trans h2.2⟩

lemma runPass_le (p : PassEnv) (hdt : ∀ (i : Fin 4) (m : Nat), 0 ≤ (p i m).dt)
    (slot : SlotMetrics) (k : Fin 4) :
    (slot k).duration ≤ ((runPass p slot).slot k).duration ∧
    (slot k).count ≤ ((runPass p slot).slot k).count := by
  rw [runPass_eq]
  exact runFuncsGo_le p hdt [0, 1, 2, 3] slot k

lemma exercise_le (envs : List PassEnv)
    (hdt : ∀ q ∈ envs, ∀ (i : Fin 4) (m : Nat), 0 ≤ (q i m).dt) :
    ∀ (slot : SlotMetrics) (k : Fin 4),
      (slot k).duration ≤ ((stress_atomic_exercise envs slot).slot k).duration ∧
      (slot k).count ≤ ((stress_atomic_exercise envs slot).slot k).count := by
  induction envs with
  | nil =>
    intro slot k
    rw [exercise_nil, ExRes_slot_mk]
    exact ⟨le_rfl, le_rfl⟩
  | cons q qs ih =>
    intro slot k
    have h1 := runPass_le q (hdt q (List.mem_cons_self q qs)) slot k
    by_cases h0 : (runPass q slot).rc < 0
    · rw [exercise_cons_fail q qs slot h0, ExRes_slot_mk]
      exact h1
    · rw [exercise_cons_ok q qs slot h0, ExRes_slot_mk]
      have h2 := ih (fun q' hq' => hdt q' (List.mem_cons_of_mem q hq'))
        ((runPass q slot).slot) k
      exact ⟨h1.1.trans h2.1, h1.2.trans h2.2⟩

/-- C8.  Metric monotonicity: each `DO_ATOMIC_OPS` batch adds exactly its
(nonnegative, clock-difference) elapsed time to `duration` and exactly 64
to `count`; hence throughout a worker's whole exercise loop both fields of
every metric of its slot are monotonically non-decreasing; and only the
owning worker's loop mutates them (the region update of worker `i` fixes
every other slot). -/
theorem atomic_metric_monotone :
    (∀ (w : Nat) (e : BatchEnv) (m : Metric),
        (do_atomic_ops w e m).1.duration = m.duration + e.dt ∧
        (do_atomic_ops w e m).1.count = m.count + 64) ∧
    (∀ (envs : List PassEnv) (slot : SlotMetrics) (k : Fin 4),
        (∀ q ∈ envs, ∀ (i : Fin 4) (m : Nat), 0 ≤ (q i m).dt) →
        (slot k).duration ≤ ((stress_atomic_exercise envs slot).slot k).duration ∧
        (slot k).count ≤ ((stress_atomic_exercise envs slot).slot k).count) ∧
    (∀ (env : List PassEnv) (i j : Fin 4) (r : Region),
        i ≠ j → applyWorker env i r j = r j) :=
  ⟨fun _ _ _ => ⟨rfl, rfl⟩,
   fun envs slot k hdt => exercise_le envs hdt slot k,
   fun env i j r h => applyWorker_frame env i j r h⟩

/-! ## stress-dev.c lines 1893-2065: the deadline guard of `stress_dev_rw`

One pass over a device records `t_start = stress_time_now()` right before
the first `open`, and after each suspension point (`open`, the `lseek`
triple, `poll`, `select`, each `fcntl`, the `mmap` pairs) re-checks
`stress_time_now() - t_start > threshold`; on the first exceedance it sets
`timeout`, closes the fd and jumps to `next`, attempting no further
suspension point on that device in that pass.  The pass is embedded as the
list of per-suspension-point elapsed increments; the result is how many
suspension points were attempted and whether the device was abandoned. -/

/-- `const double threshold = 0.25;` of `stress_dev_rw`. -/
def dev_rw_threshold : ℚ := 1 / 4

/-- The checkpoint chain: `e` is the time already elapsed since `t_start`,
each list element the elapsed time the next suspension point consumes; the
check after each point abandons the pass (`goto next`) when the cumulative
elapsed time strictly exceeds the threshold. -/
def devRwGo (θ : ℚ) : ℚ → List ℚ → Nat × Bool
  | _, [] => (0, false)
  | e, d :: ds =>
      if θ < e + d then (1, true)
      else
        let r := devRwGo θ (e + d) ds
        (r.1 + 1, r.2)

/-- One guarded pass of `stress_dev_rw`: `t_start` is taken right before
the first suspension point, so the chain starts with elapsed time 0. -/
def stress_dev_rw_guard (ds : List ℚ) : Nat × Bool :=
  devRwGo dev_rw_threshold 0 ds

lemma devRwGo_spec (θ : ℚ) :
    ∀ (ds : List ℚ) (e : ℚ),
      ((devRwGo θ e ds).1 ≤ ds.length) ∧
      ((devRwGo θ e ds).2 = true →
        θ < e + (ds.take (devRwGo θ e ds).1).sum ∧
        ∀ m, 1 ≤ m → m < (devRwGo θ e ds).1 → e + (ds.take m).sum ≤ θ) ∧
      ((devRwGo θ e ds).2 = false →
        (devRwGo θ e ds).1 = ds.length ∧
        ∀ m, 1 ≤ m → m ≤ ds.length → e + (ds.take m).sum ≤ θ) := by
  intro ds
  induction ds with
  | nil =>
    intro e
    refine ⟨le_rfl, by simp [devRwGo], fun _ => ⟨rfl, fun m hm hm' => absurd (hm.trans hm') (by simp)⟩⟩
  | cons d ds ih =>
    intro e
    by_cases hθ : θ < e + d
    · simp only [devRwGo, if_pos hθ]
      refine ⟨by simp, fun _ => ⟨by simpa using hθ, fun m hm hm' => by omega⟩, by simp⟩
    · simp only [devRwGo, if_neg hθ]
      obtain ⟨ih1, ih2, ih3⟩ := ih (e + d)
      refine ⟨by simpa using Nat.succ_le_succ ih1, ?_, ?_⟩
      · intro ht
        obtain ⟨h1, h2⟩ := ih2 ht
        refine ⟨by rw [List.take_succ_cons]; simpa [add_assoc] using h1, ?_⟩
        intro m hm hm'
        match m, hm with
        | 1, _ =>
          simpa using le_of_not_lt hθ
        | m + 2, _ =>
          have := h2 (m + 1) (by omega) (by omega)
          rw [List.take_succ_cons]
          simpa [add_assoc] using this
      · intro ht
        obtain ⟨h1, h2⟩ := ih3 ht
        refine ⟨by simp [h1], ?_⟩
        intro m hm hm'
        match m, hm with
        | 1, _ =>
          simpa using le_of_not_lt hθ
        | m + 2, _ =>
          have := h2 (m + 1) (by omega) (by simpa using hm')
          rw [List.take_succ_cons]
          simpa [add_assoc] using this

/-- C2.  Deadline-guard boundary and immediate abandonment: a guarded pass
of `stress_dev_rw` (threshold 1/4 s, start time taken before the first
suspension point) abandons the device exactly when the cumulative elapsed
time first becomes strictly greater than the threshold — every earlier
prefix is ≤ the threshold and on abandonment no further suspension point
is attempted, while a pass that never exceeds the threshold attempts every
point; with suspension points of 1/10 s each, the pass is abandoned after
the 3rd point and never after the 2nd. -/
theorem dev_rw_deadline_guard :
    dev_rw_threshold = 1 / 4 ∧
    (∀ ds : List ℚ,
      (stress_dev_rw_guard ds).1 ≤ ds.length ∧
      ((stress_dev_rw_guard ds).2 = true →
          dev_rw_threshold < (ds.take (stress_dev_rw_guard ds).1).sum ∧
          ∀ m < (stress_dev_rw_guard ds).1, (ds.take m).sum ≤ dev_rw_threshold) ∧
      ((stress_dev_rw_guard ds).2 = false →
          (stress_dev_rw_guard ds).1 = ds.length ∧
          ∀ m ≤ ds.length, (ds.take m).sum ≤ dev_rw_threshold)) ∧
    stress_dev_rw_guard (List.replicate 8 (1 / 10)) = (3, true) ∧
    stress_dev_rw_guard [1 / 10, 1 / 10] = (2, false) := by
  have hθ : (0 : ℚ) ≤ dev_rw_threshold := by norm_num [dev_rw_threshold]
  refine ⟨rfl, fun ds => ?_, ?_, ?_⟩
  case refine_2 =>
    show devRwGo (1 / 4) 0 _ = (3, true)
    norm_num [List.replicate, devRwGo]
  case refine_3 =>
    show devRwGo (1 / 4) 0 _ = (2, false)
    norm_num [devRwGo]
  obtain ⟨h1, h2, h3⟩ := devRwGo_spec dev_rw_threshold ds 0
  refine ⟨h1, fun ht => ?_, fun ht => ?_⟩
  · obtain ⟨ha, hb⟩ := h2 ht
    refine ⟨by simpa using ha, ?_⟩
    intro m hm
    match m with
    | 0 => simpa using hθ
    | m + 1 => simpa using hb (m + 1) (by omega) hm
  · obtain ⟨ha, hb⟩ := h3 ht
    refine ⟨ha, ?_⟩
    intro m hm
    match m with
    | 0 => simpa using hθ
    | m + 1 => simpa using hb (m + 1) (by omega) hm

/-! ## stress-cgroup.c lines 395-451: the reap branch of `stress_cgroup_mount`

After `shim_waitpid` succeeds: a `WIFSIGNALED` child is logged; when the
terminating signal is `SIGKILL` the code assumes an OOM kill and jumps to
`again`, which re-checks `stress_continue_flag()` and forks a replacement
(or breaks to `finish`, returning `EXIT_SUCCESS`, when cancellation has been
requested); a child terminated by any other signal just falls through to the
loop condition.  A non-signaled child whose `WEXITSTATUS` is `EXIT_FAILURE`
makes the function return `EXIT_FAILURE`. -/

/-- What `waitpid` reported for a reaped child. -/
inductive WaitStatus where
  | signaled (sig : Nat)
  | exited (code : Nat)
deriving DecidableEq

/-- What the supervisor does next after handling one reaped child. -/
inductive SupOutcome where
  | replacementForked
  | runFailed (status : Nat)
  | loopContinues
  | runFinished (status : Nat)
deriving DecidableEq

/-- The reap branch of `stress_cgroup_mount` (lines 426-441) combined with
the `again:` label it jumps to (lines 402-406). -/
def cgroup_reap_step (st : WaitStatus) (continueFlag : Bool) : SupOutcome :=
  match st with
  | .signaled sig =>
      if sig = SIGKILL then
        if continueFlag then .replacementForked else .runFinished EXIT_SUCCESS
      else .loopContinues
  | .exited code =>
      if code = EXIT_FAILURE then .runFailed EXIT_FAILURE else .loopContinues

/-- C4.  Restart on kill-class signal: a child terminated by `SIGKILL` with
cancellation not requested causes a replacement worker to be forked — never
a run failure — while with cancellation requested the run finishes cleanly;
termination by any other signal is handled without restarting (and without
failing the run), and only a non-signaled `EXIT_FAILURE` exit fails the
run. -/
theorem cgroup_sigkill_restart :
    cgroup_reap_step (.signaled SIGKILL) true = .replacementForked ∧
    cgroup_reap_step (.signaled SIGKILL) false = .runFinished EXIT_SUCCESS ∧
    (∀ sig, sig ≠ SIGKILL → ∀ f, cgroup_reap_step (.signaled sig) f = .loopContinues) ∧
    (∀ f, cgroup_reap_step (.signaled SIGKILL) f ≠ .runFailed EXIT_FAILURE) ∧
    cgroup_reap_step (.exited EXIT_FAILURE) true = .runFailed EXIT_FAILURE := by
  refine ⟨rfl, rfl, ?_, ?_, rfl⟩
  · intro sig h f
    simp [cgroup_reap_step, h]
  · intro f
    cases f <;> simp [cgroup_reap_step]

/-! ## stress-dev.c lines 2240-2247: the fork retry path of `stress_dev`

```
again:
  if (!keep_stressing())
    break;
  pid = fork();
  if (pid < 0) {
    if ((errno == EAGAIN) || (errno == ENOMEM))
      goto again;
  }
```
Each attempt is a pair: what `keep_stressing()` read at the `again` label
and, if that was true, what the `fork` returned. -/

/-- Outcome of one `fork` call. -/
inductive ForkResult where
  | ok (pid : Nat)
  | err (errno : Nat)
deriving DecidableEq

/-- How control leaves the `again` retry path. -/
inductive ForkLoopOut where
  | broke
  | proceed (r : ForkResult)
  | outOfEvents
deriving DecidableEq

/-- The `again` loop of `stress_dev`: the continue flag is checked before
each (re-)attempt; a fork failing with `EAGAIN` or `ENOMEM` re-enters the
attempt, any other outcome leaves the retry path. -/
def dev_fork_again : List (Bool × ForkResult) → ForkLoopOut
  | [] => .outOfEvents
  | (cont, r) :: rest =>
      if cont then
        match r with
        | .err e =>
            if e = EAGAIN ∨ e = ENOMEM then dev_fork_again rest else .proceed (.err e)
        | .ok pid => .proceed (.ok pid)
      else .broke

/-- C6.  Transient fork failures are retried: a fork failing with `EAGAIN`
or `ENOMEM` makes the supervisor re-enter the very same fork attempt; the
only bound is the continue flag, checked before each retry (a cleared flag
breaks out); a fork failure with any other errno leaves the retry path
with that failure, as does a successful fork. -/
theorem dev_fork_transient_retry :
    (∀ (rest : List (Bool × ForkResult)) (e : Nat), e = EAGAIN ∨ e = ENOMEM →
        dev_fork_again ((true, .err e) :: rest) = dev_fork_again rest) ∧
    (∀ (rest : List (Bool × ForkResult)) (e : Nat), e ≠ EAGAIN → e ≠ ENOMEM →
        dev_fork_again ((true, .err e) :: rest) = .proceed (.err e)) ∧
    (∀ (rest : List (Bool × ForkResult)) (a : ForkResult),
        dev_fork_again ((false, a) :: rest) = .broke) ∧
    (∀ (rest : List (Bool × ForkResult)) (pid : Nat),
        dev_fork_again ((true, .ok pid) :: rest) = .proceed (.ok pid)) := by
  refine ⟨?_, ?_, ?_, ?_⟩
  · intro rest e he
    simp [dev_fork_again, he]
  · intro rest e h1 h2
    simp [dev_fork_again, h1, h2]
  · intro rest a
    simp [dev_fork_again]
  · intro rest pid
    simp [dev_fork_again]

/-! ## stress-atomic.c lines 71-87 and 121-137: the gcc-11 NAND workaround

With gcc 11 the macros replace the single atomic NAND builtin by two atomic
steps on the variable: an AND with the operand followed by an XOR with `~0`
(all ones of the word type).  `SHIM_ATOMIC_FETCH_NAND` uses
`__atomic_fetch_and` + `__atomic_fetch_xor`, `SHIM_ATOMIC_NAND_FETCH` uses
`__atomic_and_fetch` + `__atomic_xor_fetch`; both discard the returned
value, so the stored result is what matters.  Values of the `w`-bit word
type are `Nat` truncated modulo `2 ^ w`. -/

/-- All ones of a `w`-bit word: the value `(type)~0`. -/
def wordMask (w : Nat) : Nat := 2 ^ w - 1

/-- The value the variable holds after the `SHIM_ATOMIC_FETCH_NAND`
workaround: `__atomic_fetch_and(ptr, val)` stores `var & val`, then
`__atomic_fetch_xor(ptr, ~0)` stores the XOR with all ones. -/
def SHIM_ATOMIC_FETCH_NAND_workaround (w var val : Nat) : Nat :=
  ((var % 2 ^ w) &&& (val % 2 ^ w)) ^^^ wordMask w

/-- The value the variable holds after the `SHIM_ATOMIC_NAND_FETCH`
workaround: `__atomic_and_fetch(ptr, val)` then
`__atomic_xor_fetch(ptr, ~0)` (same stores, different discarded returns). -/
def SHIM_ATOMIC_NAND_FETCH_workaround (w var val : Nat) : Nat :=
  ((var % 2 ^ w) &&& (val % 2 ^ w)) ^^^ wordMask w

/-- The value `__atomic_nand_fetch`/`__atomic_fetch_nand` store:
`~(var & val)`, the `w`-bit complement (arithmetically,
`2 ^ w - 1 - (var & val)`). -/
def atomic_nand_stored (w var val : Nat) : Nat :=
  wordMask w - ((var % 2 ^ w) &&& (val % 2 ^ w))

lemma xor_wordMask (w x : Nat) (h : x < 2 ^ w) :
    x ^^^ wordMask w = wordMask w - x := by
  have h1 : wordMask w - x = 2 ^ w - (x + 1) := by
    rw [wordMask]
    omega
  rw [h1, wordMask]
  apply Nat.eq_of_testBit_eq
  intro i
  rw [Nat.testBit_xor, Nat.testBit_two_pow_sub_one, Nat.testBit_two_pow_sub_succ h]
  by_cases hi : i < w
  · simp [hi]
  · have hx : x < 2 ^ i :=
      lt_of_lt_of_le h (Nat.pow_le_pow_right (by omega) (by omega))
    simp [hi, Nat.testBit_lt_two_pow hx]

lemma and_lt_two_pow_left (w a b : Nat) (h : a < 2 ^ w) : a &&& b < 2 ^ w :=
  lt_of_le_of_lt Nat.and_le_left h

/-- C10.  The gcc-11 NAND workaround is equivalent to the direct operation:
for every word width and all operands, the two-step sequence (atomic AND
with the operand, then atomic XOR with all ones) leaves the variable
holding `~(old & val)` modulo `2 ^ w` — the complement of the AND within
the word — exactly the value the single atomic NAND it replaces would have
stored; this holds for the `fetch_nand` and the `nand_fetch` shim alike,
and the result is again a `w`-bit value. -/
theorem gcc11_nand_workaround_equiv (w var val : Nat) :
    SHIM_ATOMIC_FETCH_NAND_workaround w var val = atomic_nand_stored w var val ∧
    SHIM_ATOMIC_NAND_FETCH_workaround w var val = atomic_nand_stored w var val ∧
    atomic_nand_stored w var val < 2 ^ w ∧
    SHIM_ATOMIC_FETCH_NAND_workaround 8 171 55 = 220 := by
  have hlt : (var % 2 ^ w) &&& (val % 2 ^ w) < 2 ^ w :=
    and_lt_two_pow_left w _ _ (Nat.mod_lt _ (Nat.pos_pow_of_pos w (by omega)))
  have hmask : 0 < 2 ^ w := Nat.pos_pow_of_pos w (by omega)
  refine ⟨?_, ?_, ?_, by decide⟩
  · rw [SHIM_ATOMIC_FETCH_NAND_workaround, atomic_nand_stored, xor_wordMask w _ hlt]
  · rw [SHIM_ATOMIC_NAND_FETCH_workaround, atomic_nand_stored, xor_wordMask w _ hlt]
  · rw [atomic_nand_stored, wordMask]
    omega

/-! ## stress-dev.c lines 2111-2218: `stress_dev_dir`

The traversal: return immediately when `depth > 20`; otherwise scan the
directory and for each entry skip `.`/`..`, skip `hpet` when running as
root, and — for names longer than one character — scan backwards from the
last character over decimal digits (the pointer never moves onto the first
character), take `atoi` of the character after the scan's stop position and
skip the entry when that number exceeds 2; a directory entry recurses with
`depth + 1`, a block/character entry is exercised.  The environmental parts
are fixed at their first-visit values: the hash-table lookups miss, `stat`
succeeds with group/other access bits set, `stress_try_open` succeeds,
`keep_stressing` stays true, `recurse` is true, and no path contains
`watchdog`.  A directory's scanned entries are the node's child list (the
`mixup_sort` order does not matter for what is visited). -/

/-- The backward pointer scan of lines 2162-2166, as a function of the
pointer's index: `while (ptr > d_name && isdigit(*ptr)) ptr--;` starting
from index `len - 1`; returns the index the pointer stops at. -/
def devPtrScan (name : List Char) : Nat → Nat
  | 0 => 0
  | i + 1 => if (name.getD (i + 1) ' ').isDigit then devPtrScan name i else i + 1

/-- `atoi` on the characters from a position onward: the decimal value of
the leading digit run (the names scanned carry no sign or blank). -/
def atoiChars (s : List Char) : Nat :=
  (s.takeWhile Char.isDigit).foldl (fun a c => 10 * a + (c.toNat - 48)) 0

/-- The digit-suffix skip of lines 2160-2170: for a name longer than one
character, `ptr++` after the scan and `atoi(ptr) > 2` decides the skip. -/
def dev_variant_skip (name : List Char) : Bool :=
  if 1 < name.length then
    decide (2 < atoiChars (name.drop (devPtrScan name (name.length - 1) + 1)))
  else false

/-- The length of the name's maximal trailing decimal-digit run. -/
def trailing_digit_count (name : List Char) : Nat :=
  (name.reverse.takeWhile Char.isDigit).length

/-- The skip rule as the claim words it: the entry is skipped when the
trailing decimal-digit suffix parses to a number greater than 2. -/
def claimed_variant_skip (name : List Char) : Bool :=
  if 1 < name.length then
    decide (2 < atoiChars (name.drop (name.length - trailing_digit_count name)))
  else false

/-- The amended skip rule: the digit suffix considered never includes the
name's first character (the pointer scan stops at index 1 at the latest). -/
def amended_variant_skip (name : List Char) : Bool :=
  if 1 < name.length then
    decide (2 < atoiChars (name.drop (max (name.length - trailing_digit_count name) 1)))
  else false

/-- A scanned `/dev` subtree: a directory with its entries, a block or
character special file, or any other entry (`d_type` neither `DT_DIR` nor
`DT_BLK`/`DT_CHR`). -/
inductive DevEntry where
  | dir : List Char → List DevEntry → DevEntry
  | blkchr : List Char → DevEntry
  | other : List Char → DevEntry

/-- The `d_name` of an entry. -/
def entryName : DevEntry → List Char
  | .dir n _ => n
  | .blkchr n => n
  | .other n => n

/-- `stress_is_dot_filename` (core helper, not under src/): the name is
`.` or `..`. -/
def stress_is_dot_filename (name : List Char) : Bool :=
  name = ['.'] || name = ['.', '.']

/-- The per-entry skip chain of lines 2145-2170: dot names, `/dev/hpet`
when the effective uid is root, and the digit-suffix cap. -/
def devEntrySkip (euidRoot : Bool) (name : List Char) : Bool :=
  stress_is_dot_filename name || (euidRoot && name = ['h', 'p', 'e', 't']) ||
    dev_variant_skip name

mutual

/-- `stress_dev_dir`: returns the names of the block/character entries the
traversal exercises, in scan order. -/
def stress_dev_dir (euidRoot : Bool) (depth : Nat) (es : List DevEntry) :
    List (List Char) :=
  if depth > 20 then [] else devDirEntries euidRoot depth es
termination_by (sizeOf es, 1)

/-- The `for (i = 0; i < n; i++)` loop over the scanned entries. -/
def devDirEntries (euidRoot : Bool) (depth : Nat) :
    List DevEntry → List (List Char)
  | [] => []
  | e :: rest =>
    (if devEntrySkip euidRoot (entryName e) then []
     else
       match e with
       | .dir _ sub => stress_dev_dir euidRoot (depth + 1) sub
       | .blkchr n => [n]
       | .other _ => []) ++ devDirEntries euidRoot depth rest
termination_by l => (sizeOf l, 0)

end

/-! ## The pointer scan versus the trailing digit run -/

lemma devPtrScan_all_digits (name : List Char) :
    ∀ i, (∀ jdx, 1 ≤ jdx → jdx ≤ i → (name.getD jdx ' ').isDigit = true) →
      devPtrScan name i = 0 := by
  intro i
  induction i with
  | zero => intro _; rfl
  | succ i ih =>
    intro h
    rw [devPtrScan, if_pos (h (i + 1) (by omega) le_rfl)]
    exact ih (fun jdx h1 h2 => h jdx h1 (by omega))

lemma devPtrScan_stop (name : List Char) :
    ∀ i k, k ≤ i → (name.getD k ' ').isDigit = false →
      (∀ jdx, k < jdx → jdx ≤ i → (name.getD jdx ' ').isDigit = true) →
      devPtrScan name i = k := by
  intro i
  induction i with
  | zero =>
    intro k hk _ _
    have hk0 : k = 0 := by omega
    subst hk0
    rfl
  | succ i ih =>
    intro k hk hkd hrun
    rcases Nat.eq_or_lt_of_le hk with rfl | hlt
    · rw [devPtrScan, if_neg (by simp only [hkd]; decide)]
    · rw [devPtrScan, if_pos (hrun (i + 1) hlt le_rfl)]
      exact ih k (by omega) hkd (fun jdx h1 h2 => hrun jdx h1 (by omega))

lemma takeWhile_length_le (p : Char → Bool) :
    ∀ L : List Char, (L.takeWhile p).length ≤ L.length := by
  intro L
  induction L with
  | nil => simp
  | cons c cs ih =>
    rw [List.takeWhile_cons]
    by_cases hc : p c = true
    · rw [if_pos hc]
      simpa using ih
    · rw [if_neg hc]
      simp

lemma takeWhile_getD (p : Char → Bool) :
    ∀ (L : List Char) (i : Nat), i < (L.takeWhile p).length →
      p (L.getD i ' ') = true := by
  intro L
  induction L with
  | nil => intro i h; simp at h
  | cons c cs ih =>
    intro i h
    rw [List.takeWhile_cons] at h
    by_cases hc : p c = true
    · rw [if_pos hc] at h
      cases i with
      | zero => rw [List.getD_cons_zero]; exact hc
      | succ i =>
        rw [List.getD_cons_succ]
        exact ih i (by simpa using h)
    · rw [if_neg hc] at h
      simp at h

lemma takeWhile_stop_getD (p : Char → Bool) :
    ∀ L : List Char, (L.takeWhile p).length < L.length →
      p (L.getD (L.takeWhile p).length ' ') = false := by
  intro L
  induction L with
  | nil => intro h; simp at h
  | cons c cs ih =>
    intro h
    rw [List.takeWhile_cons] at h ⊢
    by_cases hc : p c = true
    · rw [if_pos hc] at h ⊢
      rw [List.length_cons, List.getD_cons_succ]
      exact ih (by simpa using h)
    · rw [if_neg hc] at h ⊢
      rw [List.length_nil, List.getD_cons_zero]
      simpa using hc

lemma getD_reverse (L : List Char) (i : Nat) (h : i < L.length) :
    L.reverse.getD i ' ' = L.getD (L.length - 1 - i) ' ' := by
  rw [List.getD_eq_getElem?_getD, List.getD_eq_getElem?_getD, List.getElem?_reverse h]

lemma trailing_run_le (name : List Char) :
    trailing_digit_count name ≤ name.length := by
  rw [trailing_digit_count]
  have := takeWhile_length_le Char.isDigit name.reverse
  simpa [List.length_reverse] using this

lemma trailing_run_digit (name : List Char) (idx : Nat)
    (h1 : name.length - trailing_digit_count name ≤ idx) (h2 : idx < name.length) :
    (name.getD idx ' ').isDigit = true := by
  have hd := trailing_run_le name
  have hrev : name.reverse.getD (name.length - 1 - idx) ' ' = name.getD idx ' ' := by
    rw [getD_reverse name (name.length - 1 - idx) (by omega)]
    congr 1
    omega
  rw [← hrev]
  apply takeWhile_getD Char.isDigit name.reverse
  rw [show (name.reverse.takeWhile Char.isDigit).length = trailing_digit_count name
    from rfl]
  omega

lemma trailing_run_stop (name : List Char)
    (h : trailing_digit_count name < name.length) :
    (name.getD (name.length - trailing_digit_count name - 1) ' ').isDigit = false := by
  have hrev : name.reverse.getD (trailing_digit_count name) ' ' =
      name.getD (name.length - trailing_digit_count name - 1) ' ' := by
    rw [getD_reverse name (trailing_digit_count name) (by omega)]
    congr 1
    omega
  rw [← hrev]
  have := takeWhile_stop_getD Char.isDigit name.reverse
    (by rw [List.length_reverse]; exact h)
  exact this

lemma devPtrScan_start (name : List Char) (h : 1 ≤ name.length) :
    devPtrScan name (name.length - 1) + 1 =
      max (name.length - trailing_digit_count name) 1 := by
  have hd := trailing_run_le name
  rcases eq_or_lt_of_le hd with heq | hlt
  · have h0 : devPtrScan name (name.length - 1) = 0 := by
      apply devPtrScan_all_digits
      intro jdx h1 h2
      exact trailing_run_digit name jdx (by omega) (by omega)
    rw [h0]
    omega
  · have h0 : devPtrScan name (name.length - 1) =
        name.length - trailing_digit_count name - 1 := by
      apply devPtrScan_stop name (name.length - 1)
        (name.length - trailing_digit_count name - 1) (by omega)
        (trailing_run_stop name hlt)
      intro jdx h1 h2
      exact trailing_run_digit name jdx (by omega) (by omega)
    rw [h0]
    omega

lemma dev_variant_skip_eq_amended (name : List Char) :
    dev_variant_skip name = amended_variant_skip name := by
  rw [dev_variant_skip, amended_variant_skip]
  by_cases h : 1 < name.length
  · rw [if_pos h, if_pos h, devPtrScan_start name (by omega)]
  · rw [if_neg h, if_neg h]

/-- C9 counterexample: the all-digit entry name `30` has trailing decimal
suffix `30`, which parses to 30 > 2, so the claim says the entry is skipped;
the code's pointer scan never reaches the first character, takes `atoi("0")
= 0` and does not skip it — the traversal exercises the device. -/
theorem dev_dir_digit_suffix_cex :
    dev_variant_skip ['3', '0'] = false ∧
    claimed_variant_skip ['3', '0'] = true ∧
    stress_dev_dir false 0 [DevEntry.blkchr ['3', '0']] = [['3', '0']] := by
  refine ⟨by decide, by decide, ?_⟩
  have h20 : ¬ (0 : Nat) > 20 := by omega
  simp only [stress_dev_dir, devDirEntries, if_neg h20]
  rw [if_neg (by decide)]
  rfl

/-- C9 (amended).  Bounded directory traversal: `stress_dev_dir` returns
immediately, scanning nothing, whenever its depth argument exceeds 20, and
a directory entry recurses with `depth + 1`; the traversal (a total
function on finite trees) terminates.  For every entry name longer than one
character, the entry is skipped exactly when the trailing decimal-digit run
— truncated so that it never includes the name's first character — parses
to a number greater than 2: a skipped block/character entry is not
exercised, `ttyS0..ttyS2` are exercised and `ttyS3` is skipped, while an
all-digit name such as `30` is judged only from its second character on. -/
theorem dev_dir_bounded_traversal :
    (∀ (e : Bool) (d : Nat) (es : List DevEntry), 20 < d → stress_dev_dir e d es = []) ∧
    (∀ (e : Bool) (d : Nat) (name : List Char) (sub rest : List DevEntry), d ≤ 20 →
        stress_dev_dir e d (DevEntry.dir name sub :: rest) =
          (if devEntrySkip e name then [] else stress_dev_dir e (d + 1) sub) ++
            stress_dev_dir e d rest) ∧
    (∀ name : List Char, dev_variant_skip name = amended_variant_skip name) ∧
    (∀ (e : Bool) (d : Nat) (name : List Char) (rest : List DevEntry), d ≤ 20 →
        dev_variant_skip name = true →
        stress_dev_dir e d (DevEntry.blkchr name :: rest) = stress_dev_dir e d rest) ∧
    dev_variant_skip ['t', 't', 'y', 'S', '2'] = false ∧
    dev_variant_skip ['t', 't', 'y', 'S', '3'] = true := by
  refine ⟨?_, ?_, dev_variant_skip_eq_amended, ?_, by decide, by decide⟩
  · intro e d es hd
    rw [stress_dev_dir, if_pos hd]
  · intro e d name sub rest hd
    have h20 : ¬ d > 20 := by omega
    simp only [stress_dev_dir, devDirEntries, entryName, if_neg h20]
  · intro e d name rest hd hskip
    have h20 : ¬ d > 20 := by omega
    have hs : devEntrySkip e name = true := by
      rw [devEntrySkip, hskip, Bool.or_true]
    simp only [stress_dev_dir, devDirEntries, entryName, if_neg h20, hs, if_true]
    rfl

end StressNG
